import Mathlib

/-!
Shallow embedding of `skimage/measure/_marching_cubes_lewiner.py`.

The repository source contains the Python wrapper `marching_cubes_lewiner`
together with the lazy lookup-table provider `_get_mc_luts` and the static
edge-position tables.  The Cython engine (`_marching_cubes_lewiner_cy`) and
the packed lookup-table blobs are not part of the source tree; where a claim
depends on them they are modelled from the specification, and every such
definition is marked `Modelled from the spec:` in its doc comment.

Floating-point samples are modelled by rationals; the claims under study are
about control flow, ordering, clamping and index bookkeeping, none of which
depend on rounding.
-/

/-- A 3-component vector of rationals, one row of a `(V, 3)` float array. -/
abbrev Vec3 : Type := ℚ × ℚ × ℚ

/-- A triangle: three vertex indices, one row of the `(F, 3)` faces array. -/
abbrev Tri : Type := ℕ × ℕ × ℕ

/-- A 3-D scalar volume with shape `(m, n, p)` and a total sample function. -/
structure Volume where
  m : ℕ
  n : ℕ
  p : ℕ
  data : ℕ → ℕ → ℕ → ℚ

/-- A mesh quadruple `(vertices, faces, normals, values)`, both the raw sweep
output of the engine and the wrapper's return value. -/
structure Raw where
  verts : List Vec3
  faces : List Tri
  normals : List Vec3
  values : List ℚ
deriving DecidableEq

/-- Failure taxonomy of `marching_cubes_lewiner`: the `ValueError` for a grid
smaller than 2x2x2, the `ValueError` for a level outside the data range, the
`ValueError` for `step_size < 1`, the `RuntimeError` for an empty sweep, and
the `ValueError` for an unrecognized `gradient_direction`. -/
inductive Err where
  | tooSmall
  | levelRange
  | stepSize
  | noSurface
  | gradDir
deriving DecidableEq

/-- All samples of a volume, flattened in C order. -/
def Volume.cells (v : Volume) : List ℚ :=
  (List.range v.m).flatMap (fun x =>
    (List.range v.n).flatMap (fun y =>
      (List.range v.p).map (fun z => v.data x y z)))

/-- Minimum sample of the volume (`volume.min()`); for the at-least-2x2x2
volumes the wrapper accepts, the seed `v.data 0 0 0` is itself a sample. -/
def vmin (v : Volume) : ℚ := v.cells.foldl min (v.data 0 0 0)

/-- Maximum sample of the volume (`volume.max()`). -/
def vmax (v : Volume) : ℚ := v.cells.foldl max (v.data 0 0 0)

/-- Python `int()` applied to a real number: truncation toward zero.  The
wrapper runs `step_size = int(step_size)` before validating it.  On the
normalized fraction `num/den` (with `den > 0`), truncation toward zero is
the truncating integer division of `num` by `den`. -/
def pyInt (q : ℚ) : ℤ := q.num.tdiv q.den

/-- `np.fliplr` on one row of a `(V, 3)` array: reverse the coordinate
triple, giving the z-y-x output order used by skimage. -/
def flip3 (a : Vec3) : Vec3 := (a.2.2, a.2.1, a.1)

/-- `np.fliplr` on one row of the `(F, 3)` faces array: reverse the triangle
winding. -/
def revTri (t : Tri) : Tri := (t.2.2, t.2.1, t.1)

/-- Component-wise scaling of a vertex by the spacing triple
(`vertices * np.r_[spacing]`). -/
def scale3 (sp a : Vec3) : Vec3 := (a.1 * sp.1, a.2.1 * sp.2.1, a.2.2 * sp.2.2)

/-- Apply a function to the three indices of a triangle. -/
def triMap (f : ℕ → ℕ) (t : Tri) : Tri := (f t.1, f t.2.1, f t.2.2)

/-- Position of vertex `i`, with an out-of-range default. -/
def posOf (verts : List Vec3) (i : ℕ) : Vec3 := verts.getD i (0, 0, 0)

/-- Modelled from the spec: the `remove_degenerate_faces` keep-test of the
absent Cython module.  A triangle survives when its three vertex positions
are pairwise distinct after interpolation (4.7: zero-area triangles are
removed). -/
def keepFace (verts : List Vec3) (t : Tri) : Bool :=
  decide (posOf verts t.1 ≠ posOf verts t.2.1 ∧
          posOf verts t.1 ≠ posOf verts t.2.2 ∧
          posOf verts t.2.1 ≠ posOf verts t.2.2)

/-- Whether vertex index `i` occurs in triangle `t`. -/
def memTri (i : ℕ) (t : Tri) : Bool :=
  decide (i = t.1 ∨ i = t.2.1 ∨ i = t.2.2)

/-- Whether vertex index `i` is referenced by some surviving triangle. -/
def refd (kept : List Tri) (i : ℕ) : Bool := kept.any (memTri i)

/-- Indices of the vertices referenced by a surviving triangle, in their
original order. -/
def refdIdx (kept : List Tri) (n : ℕ) : List ℕ := (List.range n).filter (refd kept)

/-- The surviving (non-degenerate) triangles of a raw mesh. -/
def keptFaces (r : Raw) : List Tri := r.faces.filter (keepFace r.verts)

/-- The original indices of the vertices that remain referenced after the
degenerate triangles are dropped, in their original order. -/
def keptIdx (r : Raw) : List ℕ := refdIdx (keptFaces r) r.verts.length

/-- Modelled from the spec: `remove_degenerate_faces` of the absent Cython
module (4.7).  Triangles whose three vertex positions are not pairwise
distinct are dropped, then every vertex no longer referenced is removed and
the parallel vertex/normal/value arrays are compacted in order, with face
indices renumbered to the compacted positions. -/
def removeDegenerateFaces (r : Raw) : Raw :=
  { verts := (keptIdx r).map (posOf r.verts)
    faces := (keptFaces r).map (triMap (fun i => (keptIdx r).indexOf i))
    normals := (keptIdx r).map (fun i => r.normals.getD i (0, 0, 0))
    values := (keptIdx r).map (fun i => r.values.getD i 0) }

/-- Well-formedness of a raw mesh: every face references in-range vertices.
The sweep only creates vertices for the edges its triangles need, so its
output satisfies this. -/
def wfRaw (r : Raw) : Prop :=
  ∀ t ∈ r.faces, t.1 < r.verts.length ∧ t.2.1 < r.verts.length ∧
    t.2.2 < r.verts.length

/-- Scale the vertices of a mesh by the spacing triple, leaving faces,
normals and values untouched. -/
def scaleRaw (sp : Vec3) (r : Raw) : Raw :=
  { r with verts := r.verts.map (scale3 sp) }

/-- Reverse the winding of every triangle of a mesh. -/
def flipFacesRaw (r : Raw) : Raw := { r with faces := r.faces.map revTri }

/-- Spacing step of the wrapper: `if spacing != (1, 1, 1): vertices =
vertices * np.r_[spacing]`. -/
def applySpacing (sp : Vec3) (r : Raw) : Raw :=
  if sp = (1, 1, 1) then r else { r with verts := r.verts.map (scale3 sp) }

/-- Post-sweep stage of the wrapper, in source order: the empty-sweep check,
the `fliplr` reordering of vertices and normals, the `gradient_direction`
dispatch (flipping the winding for `"descent"`, rejecting unrecognized
values), and the spacing scaling. -/
def mclPost (raw : Raw) (sp : Vec3) (gd : String) : Except Err Raw :=
  if raw.verts = [] then .error .noSurface
  else
    let r1 : Raw := { verts := raw.verts.map flip3, faces := raw.faces,
                      normals := raw.normals.map flip3, values := raw.values }
    if gd = "descent" then
      .ok (applySpacing sp { r1 with faces := r1.faces.map revTri })
    else if gd = "ascent" then .ok (applySpacing sp r1)
    else .error .gradDir

/-- Step-size conversion and check, engine invocation, and post-processing.
The second component instruments the run with the sweep call that was
performed, if any: the integer stride passed to the engine together with the
raw quadruple the engine returned. -/
def mclSweep (E : Volume → ℚ → ℤ → Bool → Raw) (v : Volume) (lvl : ℚ)
    (sp : Vec3) (gd : String) (ss : ℚ) (uc : Bool) :
    Except Err Raw × Option (ℤ × Raw) :=
  if pyInt ss < 1 then (.error .stepSize, none)
  else
    (mclPost (E v lvl (pyInt ss) uc) sp gd, some (pyInt ss, E v lvl (pyInt ss) uc))

/-- Input validation of the wrapper, in source order: the 2x2x2 shape check,
then the level default/range check, then the sweep. -/
def mclCore (E : Volume → ℚ → ℤ → Bool → Raw) (v : Volume) (level : Option ℚ)
    (sp : Vec3) (gd : String) (ss : ℚ) (uc : Bool) :
    Except Err Raw × Option (ℤ × Raw) :=
  if v.m < 2 ∨ v.n < 2 ∨ v.p < 2 then (.error .tooSmall, none)
  else
    match level with
    | none => mclSweep E v ((vmin v + vmax v) / 2) sp gd ss uc
    | some l =>
        if l < vmin v ∨ vmax v < l then (.error .levelRange, none)
        else mclSweep E v l sp gd ss uc

/-- The full wrapper `marching_cubes_lewiner`, parametrized by the engine
(the absent Cython `marching_cubes`): validation, sweep, post-processing,
and the final `allow_degenerate` dispatch to `remove_degenerate_faces`. -/
def mclRun (E : Volume → ℚ → ℤ → Bool → Raw) (v : Volume) (level : Option ℚ)
    (sp : Vec3) (gd : String) (ss : ℚ) (adeg uc : Bool) :
    Except Err Raw × Option (ℤ × Raw) :=
  ((if adeg then (mclCore E v level sp gd ss uc).1
    else (mclCore E v level sp gd ss uc).1.map removeDegenerateFaces),
   (mclCore E v level sp gd ss uc).2)

/-- Decidable form of the level validation, for stating when the level check
passes. -/
def levelOk (v : Volume) : Option ℚ → Bool
  | none => true
  | some l => !(decide (l < vmin v) || decide (vmax v < l))

/-- Modelled from the spec: the EdgeInterpolator crossing parameter of the
absent Cython module (4.4).  `t = (level - va) / (vb - va)` clamped into
`[0, 1]`, with the midpoint fallback on a degenerate edge. -/
def interpT (level va vb : ℚ) : ℚ :=
  if va = vb then 1 / 2 else max 0 (min 1 ((level - va) / (vb - va)))

/-- Modelled from the spec: the CubeClassifier (4.2).  Bit `i` of the
configuration index is set when the corresponding corner value is strictly
above the threshold; a corner equal to the threshold counts as outside. -/
def cubeConfig (v : Volume) (lvl : ℚ) (x y z : ℕ) : ℕ :=
  (if lvl < v.data x y z then 1 else 0) +
  (if lvl < v.data (x + 1) y z then 2 else 0) +
  (if lvl < v.data (x + 1) (y + 1) z then 4 else 0) +
  (if lvl < v.data x (y + 1) z then 8 else 0) +
  (if lvl < v.data x y (z + 1) then 16 else 0) +
  (if lvl < v.data (x + 1) y (z + 1) then 32 else 0) +
  (if lvl < v.data (x + 1) (y + 1) (z + 1) then 64 else 0) +
  (if lvl < v.data x (y + 1) (z + 1) then 128 else 0)

/-- Sweep positions along one axis of extent `len` cubes at stride `k`. -/
def strided (len k : ℕ) : List ℕ := (List.range len).filter (fun i => i % k == 0)

/-- All cube positions visited by the sweep at stride `k` (4.5: the full grid
extent minus one in each dimension). -/
def cubePositions (v : Volume) (k : ℕ) : List (ℕ × ℕ × ℕ) :=
  (strided (v.m - 1) k).flatMap (fun x =>
    (strided (v.n - 1) k).flatMap (fun y =>
      (strided (v.p - 1) k).map (fun z => (x, y, z))))

/-- Whether a cube's configuration is mixed, i.e. yields a surface piece:
configurations 0 (all corners outside) and 255 (all corners above) are the
no-surface case 0. -/
def mixedCube (v : Volume) (lvl : ℚ) (pos : ℕ × ℕ × ℕ) : Bool :=
  !(cubeConfig v lvl pos.1 pos.2.1 pos.2.2 == 0 ||
    cubeConfig v lvl pos.1 pos.2.1 pos.2.2 == 255)

/-- A fixed well-formed one-triangle mesh standing for a nonempty sweep
result. -/
def placeholderRaw : Raw :=
  { verts := [(0, 0, 0), (1, 0, 0), (0, 1, 0)]
    faces := [(0, 1, 2)]
    normals := [(0, 0, 1), (0, 0, 1), (0, 0, 1)]
    values := [0, 0, 0] }

/-- Modelled from the spec: the absent Cython engine, abstracted to the
granularity the wrapper-level claims need.  Classification follows 4.2 and
the sweep extent 4.5; whenever every visited cube has the no-surface
configuration (case 0, i.e. configuration 0 or 255) the sweep emits nothing,
and otherwise the tiling stage, whose lookup tables are opaque data outside
the source tree, is abstracted to a fixed nonempty well-formed mesh. -/
def engModel (v : Volume) (lvl : ℚ) (k : ℤ) (uc : Bool) : Raw :=
  if (cubePositions v k.toNat).any (mixedCube v lvl) then placeholderRaw
  else { verts := [], faces := [], normals := [], values := [] }

/-- Modelled from the spec: a raw sweep output for a volume whose isosurface
passes exactly through a grid corner.  With a corner value equal to the
level, the crossing parameter of 4.4 clamps to `t = 0` on each of the three
edges of a case-1 cube, so the three cached vertices (distinct edge
identities) share one position and the single emitted triangle is exactly
degenerate. -/
def rawDegen : Raw :=
  { verts := [(0, 0, 0), (0, 0, 0), (0, 0, 0)]
    faces := [(0, 1, 2)]
    normals := [(0, 0, 1), (0, 0, 1), (0, 0, 1)]
    values := [0, 0, 0] }

/-- Modelled from the spec: an engine whose sweep yields only the fully
degenerate triangle of `rawDegen`. -/
def engDegen : Volume → ℚ → ℤ → Bool → Raw := fun _ _ _ _ => rawDegen

/-- A uniform constant volume. -/
def constVol (m n p : ℕ) (c : ℚ) : Volume := ⟨m, n, p, fun _ _ _ => c⟩

/-- A 2x2x2 linear ramp along the first axis: values 0 and 1. -/
def rampVol : Volume := ⟨2, 2, 2, fun x _ _ => (x : ℚ)⟩

/-- `EDGETORELATIVEPOSX` of the source: per edge index, the x offsets of the
two pixels the edge point lies between. -/
def EDGETORELATIVEPOSX : List (List ℤ) :=
  [[0, 1], [1, 1], [1, 0], [0, 0], [0, 1], [1, 1], [1, 0], [0, 0],
   [0, 0], [1, 1], [1, 1], [0, 0]]

/-- `EDGETORELATIVEPOSY` of the source. -/
def EDGETORELATIVEPOSY : List (List ℤ) :=
  [[0, 0], [0, 1], [1, 1], [1, 0], [0, 0], [0, 1], [1, 1], [1, 0],
   [0, 0], [0, 0], [1, 1], [1, 1]]

/-- `EDGETORELATIVEPOSZ` of the source. -/
def EDGETORELATIVEPOSZ : List (List ℤ) :=
  [[0, 0], [0, 0], [0, 0], [0, 0], [1, 1], [1, 1], [1, 1], [1, 1],
   [0, 1], [0, 1], [0, 1], [0, 1]]

/-- The lookup-table provider handed to the engine: the three static edge
tables together with the decoded case/tiling/test tables.  Modelled from the
spec: the packed blobs and the Cython `LutProvider` are outside the source
tree, so the decoded tables are carried as opaque integer arrays. -/
structure LutProvider where
  edgeX : List (List ℤ)
  edgeY : List (List ℤ)
  edgeZ : List (List ℤ)
  tables : List (List (List ℤ))
deriving DecidableEq

/-- Construction of the lookup-table provider from the decoded table data:
a pure function of its input (`_get_mc_luts` builds
`LutProvider(EDGETORELATIVEPOSX, ..., decoded tables)`). -/
def buildLuts (tabs : List (List (List ℤ))) : LutProvider :=
  { edgeX := EDGETORELATIVEPOSX, edgeY := EDGETORELATIVEPOSY,
    edgeZ := EDGETORELATIVEPOSZ, tables := tabs }

/-- The module-level cache state of `_get_mc_luts`: the `THE_LUTS` attribute
when present, plus an instrumentation counter of how many builds happened. -/
structure LutState where
  cache : Option LutProvider
  builds : ℕ
deriving DecidableEq

/-- `_get_mc_luts`: return the cached provider when the `THE_LUTS` attribute
exists, otherwise build it once, store it, and return it. -/
def getMcLuts (tabs : List (List (List ℤ))) (s : LutState) :
    LutProvider × LutState :=
  match s.cache with
  | some L => (L, s)
  | none => (buildLuts tabs, ⟨some (buildLuts tabs), s.builds + 1⟩)

/-- Iterate `_get_mc_luts` a number of times, threading the cache state. -/
def getMcLutsIter (tabs : List (List (List ℤ))) : ℕ → LutState → LutState
  | 0, s => s
  | n + 1, s => getMcLutsIter tabs n (getMcLuts tabs s).2

/-! ### Shared helper lemmas -/

theorem mclRun_true_eq (E : Volume → ℚ → ℤ → Bool → Raw) (v : Volume)
    (level : Option ℚ) (sp : Vec3) (gd : String) (ss : ℚ) (uc : Bool) :
    mclRun E v level sp gd ss true uc = mclCore E v level sp gd ss uc := rfl

theorem mclRun_false_eq (E : Volume → ℚ → ℤ → Bool → Raw) (v : Volume)
    (level : Option ℚ) (sp : Vec3) (gd : String) (ss : ℚ) (uc : Bool) :
    mclRun E v level sp gd ss false uc =
      ((mclCore E v level sp gd ss uc).1.map removeDegenerateFaces,
       (mclCore E v level sp gd ss uc).2) := rfl

theorem exceptMap_error (f : Raw → Raw) (e : Err) :
    (Except.error e : Except Err Raw).map f = Except.error e := rfl

theorem exceptMap_ok (f : Raw → Raw) (r : Raw) :
    (Except.ok r : Except Err Raw).map f = Except.ok (f r) := rfl

theorem exceptMap_eq_error_iff (f : Raw → Raw) (x : Except Err Raw) (e : Err) :
    x.map f = Except.error e ↔ x = Except.error e := by
  cases x <;> simp [Except.map]

/-- Case analysis on the validation stage of the wrapper: every run either
fails one of the three input checks before the sweep, or performs the sweep
at some level `lvl` with stride `pyInt ss` and post-processes its result. -/
theorem mclCore_cases (E : Volume → ℚ → ℤ → Bool → Raw) (v : Volume)
    (level : Option ℚ) (sp : Vec3) (gd : String) (ss : ℚ) (uc : Bool) :
    mclCore E v level sp gd ss uc = (Except.error Err.tooSmall, none) ∨
    mclCore E v level sp gd ss uc = (Except.error Err.levelRange, none) ∨
    mclCore E v level sp gd ss uc = (Except.error Err.stepSize, none) ∨
    ∃ lvl, mclCore E v level sp gd ss uc =
      (mclPost (E v lvl (pyInt ss) uc) sp gd,
       some (pyInt ss, E v lvl (pyInt ss) uc)) := by
  by_cases hdim : v.m < 2 ∨ v.n < 2 ∨ v.p < 2
  · exact Or.inl (by unfold mclCore; rw [if_pos hdim])
  · cases level with
    | none =>
        by_cases hk : pyInt ss < 1
        · refine Or.inr (Or.inr (Or.inl ?_))
          unfold mclCore mclSweep
          rw [if_neg hdim, if_pos hk]
        · refine Or.inr (Or.inr (Or.inr ⟨(vmin v + vmax v) / 2, ?_⟩))
          unfold mclCore mclSweep
          rw [if_neg hdim, if_neg hk]
    | some l =>
        by_cases hl : l < vmin v ∨ vmax v < l
        · refine Or.inr (Or.inl ?_)
          simp only [mclCore]
          rw [if_neg hdim, if_pos hl]
        · by_cases hk : pyInt ss < 1
          · refine Or.inr (Or.inr (Or.inl ?_))
            simp only [mclCore, mclSweep]
            rw [if_neg hdim, if_neg hl, if_pos hk]
          · refine Or.inr (Or.inr (Or.inr ⟨l, ?_⟩))
            simp only [mclCore, mclSweep]
            rw [if_neg hdim, if_neg hl, if_neg hk]

theorem mclPost_never_stepSize (raw : Raw) (sp : Vec3) (gd : String) :
    mclPost raw sp gd ≠ Except.error Err.stepSize := by
  unfold mclPost
  split
  · simp
  · split
    · simp
    · split <;> simp

theorem applySpacing_faces (sp : Vec3) (r : Raw) :
    (applySpacing sp r).faces = r.faces := by
  unfold applySpacing; split <;> rfl

theorem applySpacing_verts_length (sp : Vec3) (r : Raw) :
    (applySpacing sp r).verts.length = r.verts.length := by
  unfold applySpacing; split <;> simp

/-! ### C4: the edge interpolation parameter -/

/-- C4: for every edge with corner values `va` and `vb`, the crossing
parameter `t = (level - va) / (vb - va)` is clamped into `[0, 1]`, and on a
degenerate edge (`va = vb`) it is the midpoint `1/2`, the division being
avoided entirely. -/
theorem interpT_clamped_and_midpoint (level va vb : ℚ) :
    (0 ≤ interpT level va vb ∧ interpT level va vb ≤ 1) ∧
    (va = vb → interpT level va vb = 1 / 2) := by
  unfold interpT
  split
  · exact ⟨⟨by norm_num, by norm_num⟩, fun _ => rfl⟩
  · refine ⟨⟨le_max_left _ _, max_le (by norm_num) (min_le_left _ _)⟩, ?_⟩
    intro h
    exact absurd h (by assumption)

/-- Witness for C4 at `level = 3`, `va = vb = 5`. -/
theorem interpT_clamped_and_midpoint_witness :
    (0 ≤ interpT 3 5 5 ∧ interpT 3 5 5 ≤ 1) ∧ ((5 : ℚ) = 5 → interpT 3 5 5 = 1 / 2) :=
  interpT_clamped_and_midpoint 3 5 5

/-! ### C5: determinism -/

/-- C5: two runs of the wrapper on equal grids, levels, spacings, gradient
directions, step sizes and flags produce identical outputs (vertex sequence,
triangle list, normals and values, in the same order).  The embedding is a
pure function of its inputs, mirroring the absence of any randomness or
sweep-order dependence in the code. -/
theorem mclRun_deterministic (E : Volume → ℚ → ℤ → Bool → Raw)
    (v₁ v₂ : Volume) (l₁ l₂ : Option ℚ) (sp₁ sp₂ : Vec3) (gd₁ gd₂ : String)
    (ss₁ ss₂ : ℚ) (a₁ a₂ u₁ u₂ : Bool)
    (hv : v₁ = v₂) (hl : l₁ = l₂) (hsp : sp₁ = sp₂) (hgd : gd₁ = gd₂)
    (hss : ss₁ = ss₂) (ha : a₁ = a₂) (hu : u₁ = u₂) :
    mclRun E v₁ l₁ sp₁ gd₁ ss₁ a₁ u₁ = mclRun E v₂ l₂ sp₂ gd₂ ss₂ a₂ u₂ := by
  subst hv hl hsp hgd hss ha hu
  rfl

/-- Witness for C5: a repeated run on the concrete ramp volume. -/
theorem mclRun_deterministic_witness :
    mclRun engModel rampVol (some (mkRat 1 2)) (1, 1, 1) "descent" 1 true false =
      mclRun engModel rampVol (some (mkRat 1 2)) (1, 1, 1) "descent" 1 true false :=
  mclRun_deterministic engModel rampVol rampVol (some (mkRat 1 2)) (some (mkRat 1 2))
    (1, 1, 1) (1, 1, 1) "descent" "descent" 1 1 true true false false
    rfl rfl rfl rfl rfl rfl rfl

/-! ### C9: lazy, cached, idempotent lookup-table construction -/

theorem getMcLutsIter_cached (tabs : List (List (List ℤ))) (n : ℕ)
    (L : LutProvider) (b : ℕ) :
    getMcLutsIter tabs n ⟨some L, b⟩ = ⟨some L, b⟩ := by
  induction n with
  | zero => rfl
  | succ k ih => simpa [getMcLutsIter, getMcLuts] using ih

/-- C9: lookup-table construction is lazy, cached and idempotent.  When the
cache already holds a provider, `_get_mc_luts` returns it unchanged without
rebuilding; starting from an empty cache, any positive number of requests
performs exactly one build, leaving the cache holding that provider; and a
second build from the same table data yields an identical provider. -/
theorem getMcLuts_lazy_idempotent (tabs tabs₂ : List (List (List ℤ)))
    (s : LutState) (L : LutProvider) (n : ℕ) :
    (s.cache = some L → getMcLuts tabs s = (L, s)) ∧
    (1 ≤ n → getMcLutsIter tabs n ⟨none, 0⟩ = ⟨some (buildLuts tabs), 1⟩) ∧
    (tabs₂ = tabs → buildLuts tabs₂ = buildLuts tabs) := by
  refine ⟨?_, ?_, ?_⟩
  · intro h
    cases s with
    | mk cache builds =>
        cases cache with
        | none => simp at h
        | some L₀ =>
            obtain rfl : L₀ = L := by simpa using h
            rfl
  · intro hn
    cases n with
    | zero => omega
    | succ k =>
        show getMcLutsIter tabs k (getMcLuts tabs ⟨none, 0⟩).2 = _
        simpa [getMcLuts] using getMcLutsIter_cached tabs k (buildLuts tabs) 1
  · intro h
    rw [h]

/-- Witness for C9: two requests from an empty cache build once; a request
against a populated cache returns the cached provider. -/
theorem getMcLuts_lazy_idempotent_witness :
    getMcLutsIter [] 2 ⟨none, 0⟩ = ⟨some (buildLuts []), 1⟩ ∧
    getMcLuts [] ⟨some (buildLuts []), 5⟩ = (buildLuts [], ⟨some (buildLuts []), 5⟩) :=
  ⟨(getMcLuts_lazy_idempotent [] [] ⟨none, 0⟩ (buildLuts []) 2).2.1 (by norm_num),
   (getMcLuts_lazy_idempotent [] [] ⟨some (buildLuts []), 5⟩ (buildLuts []) 2).1 rfl⟩

/-! ### More shared helpers for the wrapper pipeline -/

theorem mclRun_fst (E : Volume → ℚ → ℤ → Bool → Raw) (v : Volume)
    (level : Option ℚ) (sp : Vec3) (gd : String) (ss : ℚ) (adeg uc : Bool) :
    (mclRun E v level sp gd ss adeg uc).1 =
      (if adeg then (mclCore E v level sp gd ss uc).1
       else (mclCore E v level sp gd ss uc).1.map removeDegenerateFaces) := rfl

theorem mclRun_snd (E : Volume → ℚ → ℤ → Bool → Raw) (v : Volume)
    (level : Option ℚ) (sp : Vec3) (gd : String) (ss : ℚ) (adeg uc : Bool) :
    (mclRun E v level sp gd ss adeg uc).2 = (mclCore E v level sp gd ss uc).2 := rfl

theorem mclPost_bad_gd (raw : Raw) (sp : Vec3) (gd : String)
    (hd : gd ≠ "descent") (ha : gd ≠ "ascent") :
    mclPost raw sp gd =
      if raw.verts = [] then Except.error Err.noSurface
      else Except.error Err.gradDir := by
  by_cases hv : raw.verts = []
  · simp [mclPost, hv]
  · simp [mclPost, hv, hd, ha]

/-! ### C2: when an unrecognized gradient_direction is rejected -/

/-- C2 (amended): an unrecognized `gradient_direction` always makes the call
fail, but the check sits after the sweep in the source: whenever the
`gradient_direction` error is the one raised, the sweep has already run and
found a surface (a run that finds none raises the no-surface error
instead). -/
theorem mcl_gradDir_checked_after_sweep (E : Volume → ℚ → ℤ → Bool → Raw)
    (v : Volume) (level : Option ℚ) (sp : Vec3) (gd : String) (ss : ℚ)
    (adeg uc : Bool) (hd : gd ≠ "descent") (ha : gd ≠ "ascent") :
    (∀ out : Raw, (mclRun E v level sp gd ss adeg uc).1 ≠ Except.ok out) ∧
    ((mclRun E v level sp gd ss adeg uc).1 = Except.error Err.gradDir →
      ∃ k raw, (mclRun E v level sp gd ss adeg uc).2 = some (k, raw) ∧
        raw.verts ≠ []) := by
  constructor
  · intro out hout
    rw [mclRun_fst] at hout
    rcases mclCore_cases E v level sp gd ss uc with hc | hc | hc | ⟨lvl, hc⟩ <;>
      rw [hc] at hout
    · cases adeg <;> simp [Except.map] at hout
    · cases adeg <;> simp [Except.map] at hout
    · cases adeg <;> simp [Except.map] at hout
    · rw [mclPost_bad_gd _ _ _ hd ha] at hout
      by_cases hv : (E v lvl (pyInt ss) uc).verts = []
      · rw [if_pos hv] at hout
        cases adeg <;> simp [Except.map] at hout
      · rw [if_neg hv] at hout
        cases adeg <;> simp [Except.map] at hout
  · intro hgd
    rw [mclRun_fst] at hgd
    rw [mclRun_snd]
    rcases mclCore_cases E v level sp gd ss uc with hc | hc | hc | ⟨lvl, hc⟩ <;>
      rw [hc] at hgd ⊢
    · cases adeg <;> simp [Except.map] at hgd
    · cases adeg <;> simp [Except.map] at hgd
    · cases adeg <;> simp [Except.map] at hgd
    · rw [mclPost_bad_gd _ _ _ hd ha] at hgd
      by_cases hv : (E v lvl (pyInt ss) uc).verts = []
      · rw [if_pos hv] at hgd
        cases adeg <;> simp [Except.map] at hgd
      · exact ⟨pyInt ss, E v lvl (pyInt ss) uc, rfl, hv⟩

/-- Witness for C2's amended claim: a concrete run with
`gradient_direction = "up"` cannot return normally. -/
theorem mcl_gradDir_checked_after_sweep_witness :
    (mclRun engModel rampVol (some (mkRat 1 2)) (1, 1, 1) "up" 1 true false).1 ≠
      Except.ok placeholderRaw :=
  (mcl_gradDir_checked_after_sweep engModel rampVol (some (mkRat 1 2)) (1, 1, 1)
    "up" 1 true false (by decide) (by decide)).1 placeholderRaw

/-- Counterexample to C2 as stated: with `gradient_direction = "up"` on a
valid grid whose sweep finds a surface, the call does raise the
`gradient_direction` error, but the instrumented run shows the sweep was
performed first (stride 1, a nonempty raw mesh), not rejected before any
sweep work. -/
theorem mcl_gradDir_sweep_ran_cex :
    mclRun engModel rampVol (some (mkRat 1 2)) (1, 1, 1) "up" 1 true false =
      (Except.error Err.gradDir, some (1, placeholderRaw)) := by rfl

/-! ### C10: step_size truncation -/

theorem mclSweep_step_spec (E : Volume → ℚ → ℤ → Bool → Raw) (v : Volume)
    (level : Option ℚ) (sp : Vec3) (gd : String) (ss : ℚ) (adeg uc : Bool)
    (lvl : ℚ)
    (hcore : mclCore E v level sp gd ss uc = mclSweep E v lvl sp gd ss uc) :
    ((mclRun E v level sp gd ss adeg uc).1 = Except.error Err.stepSize ↔
      pyInt ss < 1) ∧
    (1 ≤ pyInt ss →
      ∃ raw, (mclRun E v level sp gd ss adeg uc).2 = some (pyInt ss, raw)) := by
  by_cases hk : pyInt ss < 1
  · constructor
    · rw [mclRun_fst, hcore]
      unfold mclSweep
      rw [if_pos hk]
      cases adeg <;> simp [Except.map, hk]
    · intro h1
      omega
  · constructor
    · rw [mclRun_fst, hcore]
      unfold mclSweep
      rw [if_neg hk]
      constructor
      · intro h
        cases adeg <;> simp only [if_pos, if_neg, Bool.false_eq_true, ite_false,
          ite_true] at h
        · rw [exceptMap_eq_error_iff] at h
          exact absurd h (mclPost_never_stepSize _ _ _)
        · exact absurd h (mclPost_never_stepSize _ _ _)
      · intro h
        omega
    · intro _
      refine ⟨E v lvl (pyInt ss) uc, ?_⟩
      rw [mclRun_snd, hcore]
      unfold mclSweep
      rw [if_neg hk]

/-- C10: the wrapper truncates `step_size` toward zero with `int()` before
validating it; given a valid grid and level, the step-size error is raised
exactly when the truncated value is below 1 (so fractional step sizes in
`(0, 1)` are rejected), and every accepted call passes the truncated value
to the sweep as its stride. -/
theorem mcl_step_size_truncated (E : Volume → ℚ → ℤ → Bool → Raw) (v : Volume)
    (level : Option ℚ) (sp : Vec3) (gd : String) (ss : ℚ) (adeg uc : Bool)
    (hdim : ¬(v.m < 2 ∨ v.n < 2 ∨ v.p < 2)) (hlvl : levelOk v level = true) :
    ((mclRun E v level sp gd ss adeg uc).1 = Except.error Err.stepSize ↔
      pyInt ss < 1) ∧
    (1 ≤ pyInt ss →
      ∃ raw, (mclRun E v level sp gd ss adeg uc).2 = some (pyInt ss, raw)) := by
  cases level with
  | none =>
      refine mclSweep_step_spec E v none sp gd ss adeg uc
        ((vmin v + vmax v) / 2) ?_
      simp only [mclCore]
      rw [if_neg hdim]
  | some l =>
      have hl : ¬(l < vmin v ∨ vmax v < l) := by
        simp only [levelOk, Bool.not_eq_true', Bool.or_eq_false_iff,
          decide_eq_false_iff_not] at hlvl
        rw [not_or]
        exact ⟨hlvl.1, hlvl.2⟩
      refine mclSweep_step_spec E v (some l) sp gd ss adeg uc l ?_
      simp only [mclCore]
      rw [if_neg hdim, if_neg hl]

/-- Witness for C10: a fractional `step_size` of 1.9 truncates to stride 1
and is accepted: the run does not raise the step-size error. -/
theorem mcl_step_size_truncated_witness :
    ((mclRun engModel rampVol (some (mkRat 1 2)) (1, 1, 1) "ascent"
        (mkRat 19 10) true false).1 = Except.error Err.stepSize ↔
      pyInt (mkRat 19 10) < 1) :=
  (mcl_step_size_truncated engModel rampVol (some (mkRat 1 2)) (1, 1, 1)
    "ascent" (mkRat 19 10) true false (by decide) (by decide)).1

/-! ### C1: the empty sweep is an error; normal returns have faces -/

theorem engModel_verts_iff (v : Volume) (lvl : ℚ) (k : ℤ) (uc : Bool) :
    ((engModel v lvl k uc).verts = [] ↔ (engModel v lvl k uc).faces = []) := by
  unfold engModel
  split <;> simp [placeholderRaw]

/-- C1 (amended): when the engine's sweep produces no triangles, the wrapper
raises the no-surface error rather than returning an empty mesh; and every
normally returning call with `allow_degenerate = true` has a non-empty face
list.  (With `allow_degenerate = false` the degenerate-face filter runs after
the emptiness check and can empty the face list; see the counterexample.)
The hypothesis is the sweep invariant that vertices exist exactly when
triangles do. -/
theorem mcl_no_surface_spec (E : Volume → ℚ → ℤ → Bool → Raw) (v : Volume)
    (level : Option ℚ) (sp : Vec3) (gd : String) (ss : ℚ) (adeg uc : Bool)
    (hE : ∀ v₀ l₀ k₀ c₀, ((E v₀ l₀ k₀ c₀).verts = [] ↔ (E v₀ l₀ k₀ c₀).faces = [])) :
    (∀ k raw, (mclRun E v level sp gd ss adeg uc).2 = some (k, raw) →
      raw.faces = [] →
      (mclRun E v level sp gd ss adeg uc).1 = Except.error Err.noSurface) ∧
    (adeg = true → ∀ out, (mclRun E v level sp gd ss adeg uc).1 = Except.ok out →
      out.faces ≠ []) := by
  rcases mclCore_cases E v level sp gd ss uc with hc | hc | hc | ⟨lvl, hc⟩
  · refine ⟨?_, ?_⟩
    · intro k raw h
      rw [mclRun_snd, hc] at h
      simp at h
    · intro _ out h
      rw [mclRun_fst, hc] at h
      cases adeg <;> simp [Except.map] at h
  · refine ⟨?_, ?_⟩
    · intro k raw h
      rw [mclRun_snd, hc] at h
      simp at h
    · intro _ out h
      rw [mclRun_fst, hc] at h
      cases adeg <;> simp [Except.map] at h
  · refine ⟨?_, ?_⟩
    · intro k raw h
      rw [mclRun_snd, hc] at h
      simp at h
    · intro _ out h
      rw [mclRun_fst, hc] at h
      cases adeg <;> simp [Except.map] at h
  · refine ⟨?_, ?_⟩
    · intro k raw h hfaces
      rw [mclRun_snd, hc] at h
      simp only [Option.some.injEq, Prod.mk.injEq] at h
      have hraw : raw = E v lvl (pyInt ss) uc := h.2.symm
      rw [hraw] at hfaces
      have hverts : (E v lvl (pyInt ss) uc).verts = [] :=
        (hE v lvl (pyInt ss) uc).mpr hfaces
      rw [mclRun_fst, hc]
      simp only [mclPost, hverts, if_pos]
      cases adeg <;> simp [Except.map]
    · intro hadeg out hout
      subst hadeg
      rw [mclRun_fst, hc] at hout
      simp only [if_pos] at hout
      simp only [mclPost] at hout
      by_cases hv : (E v lvl (pyInt ss) uc).verts = []
      · rw [if_pos hv] at hout
        simp at hout
      · rw [if_neg hv] at hout
        have hfne : (E v lvl (pyInt ss) uc).faces ≠ [] := fun hf =>
          hv ((hE v lvl (pyInt ss) uc).mpr hf)
        by_cases h1 : gd = "descent"
        · rw [if_pos h1] at hout
          simp only [Except.ok.injEq] at hout
          subst hout
          simp [applySpacing_faces, hfne]
        · rw [if_neg h1] at hout
          by_cases h2 : gd = "ascent"
          · rw [if_pos h2] at hout
            simp only [Except.ok.injEq] at hout
            subst hout
            simp [applySpacing_faces, hfne]
          · rw [if_neg h2] at hout
            simp at hout

/-- Witness for C1's amended claim: a concrete normally returning run with
`allow_degenerate = true` has a non-empty face list. -/
theorem mcl_no_surface_spec_witness :
    ({ verts := [((0 : ℚ), (0 : ℚ), (0 : ℚ)), (0, 0, 1), (0, 1, 0)],
       faces := [(0, 1, 2)],
       normals := [(1, 0, 0), (1, 0, 0), (1, 0, 0)],
       values := [0, 0, 0] } : Raw).faces ≠ [] :=
  (mcl_no_surface_spec engModel rampVol (some (mkRat 1 2)) (1, 1, 1) "ascent" 1
    true false engModel_verts_iff).2 rfl _ (by rfl)

/-- Counterexample to C1 as stated: with `allow_degenerate = false`, a sweep
whose only triangle is exactly degenerate (its three vertices interpolate to
one position) passes the non-emptiness check — which runs before the filter
and inspects the unfiltered vertices — and then has its whole face list
removed by the degenerate-face filter, so the call returns normally with an
empty face list instead of failing. -/
theorem mcl_empty_faces_cex :
    mclRun engDegen rampVol (some (mkRat 1 2)) (1, 1, 1) "ascent" 1 false false =
      (Except.ok { verts := [], faces := [], normals := [], values := [] },
       some (1, rawDegen)) := by rfl

/-! ### C3: uniform constant grids -/

theorem foldl_min_const (c : ℚ) (l : List ℚ) (h : ∀ x ∈ l, x = c) :
    l.foldl min c = c := by
  induction l with
  | nil => rfl
  | cons a t ih =>
      have ha : a = c := h a (List.mem_cons_self a t)
      have ht : ∀ x ∈ t, x = c := fun x hx => h x (List.mem_cons_of_mem a hx)
      simp only [List.foldl_cons, ha, min_self]
      exact ih ht

theorem foldl_max_const (c : ℚ) (l : List ℚ) (h : ∀ x ∈ l, x = c) :
    l.foldl max c = c := by
  induction l with
  | nil => rfl
  | cons a t ih =>
      have ha : a = c := h a (List.mem_cons_self a t)
      have ht : ∀ x ∈ t, x = c := fun x hx => h x (List.mem_cons_of_mem a hx)
      simp only [List.foldl_cons, ha, max_self]
      exact ih ht

theorem cells_const (m n p : ℕ) (c : ℚ) :
    ∀ x ∈ (constVol m n p c).cells, x = c := by
  intro x hx
  simp only [Volume.cells, constVol, List.mem_flatMap, List.mem_map,
    List.mem_range] at hx
  obtain ⟨_, _, _, _, _, _, hx⟩ := hx
  exact hx.symm

theorem vmin_const (m n p : ℕ) (c : ℚ) : vmin (constVol m n p c) = c :=
  foldl_min_const c _ (cells_const m n p c)

theorem vmax_const (m n p : ℕ) (c : ℚ) : vmax (constVol m n p c) = c :=
  foldl_max_const c _ (cells_const m n p c)

theorem cubeConfig_const (m n p : ℕ) (c : ℚ) (x y z : ℕ) :
    cubeConfig (constVol m n p c) c x y z = 0 := by
  simp [cubeConfig, constVol]

theorem engModel_const (m n p : ℕ) (c : ℚ) (k : ℤ) (uc : Bool) :
    engModel (constVol m n p c) c k uc =
      { verts := [], faces := [], normals := [], values := [] } := by
  have hall : (cubePositions (constVol m n p c) k.toNat).any
      (mixedCube (constVol m n p c) c) = false :=
    List.any_eq_false.mpr (fun pos _ => by simp [mixedCube, cubeConfig_const])
  simp [engModel, hall]

/-- C3 (amended): for a uniform constant grid, an explicit level strictly
above or strictly below the constant fails the level-range check before any
sweep (an `InvalidInput` error, not `NoSurfaceFound`), while the default
level — the mid-range, i.e. the constant itself — classifies every cube as
configuration 0, yields zero triangles, and raises the no-surface error. -/
theorem mcl_const_grid (m n p : ℕ) (c l : ℚ) (sp : Vec3) (gd : String)
    (ss : ℚ) (adeg uc : Bool) (hm : 2 ≤ m) (hn : 2 ≤ n) (hp : 2 ≤ p)
    (hss : 1 ≤ pyInt ss) :
    (c < l → mclRun engModel (constVol m n p c) (some l) sp gd ss adeg uc =
      (Except.error Err.levelRange, none)) ∧
    (l < c → mclRun engModel (constVol m n p c) (some l) sp gd ss adeg uc =
      (Except.error Err.levelRange, none)) ∧
    mclRun engModel (constVol m n p c) none sp gd ss adeg uc =
      (Except.error Err.noSurface,
       some (pyInt ss, { verts := [], faces := [], normals := [], values := [] })) := by
  have hdim : ¬((constVol m n p c).m < 2 ∨ (constVol m n p c).n < 2 ∨
      (constVol m n p c).p < 2) := by
    simp only [constVol, not_or, not_lt]
    exact ⟨hm, hn, hp⟩
  refine ⟨?_, ?_, ?_⟩
  · intro hcl
    have hrange : l < vmin (constVol m n p c) ∨ vmax (constVol m n p c) < l :=
      Or.inr (by rw [vmax_const]; exact hcl)
    have hcore : mclCore engModel (constVol m n p c) (some l) sp gd ss uc =
        (Except.error Err.levelRange, none) := by
      simp only [mclCore]
      rw [if_neg hdim, if_pos hrange]
    cases adeg <;> simp [mclRun, hcore, Except.map]
  · intro hlc
    have hrange : l < vmin (constVol m n p c) ∨ vmax (constVol m n p c) < l :=
      Or.inl (by rw [vmin_const]; exact hlc)
    have hcore : mclCore engModel (constVol m n p c) (some l) sp gd ss uc =
        (Except.error Err.levelRange, none) := by
      simp only [mclCore]
      rw [if_neg hdim, if_pos hrange]
    cases adeg <;> simp [mclRun, hcore, Except.map]
  · have hlvl : (vmin (constVol m n p c) + vmax (constVol m n p c)) / 2 = c := by
      rw [vmin_const, vmax_const]
      ring
    have hcore : mclCore engModel (constVol m n p c) none sp gd ss uc =
        (Except.error Err.noSurface,
         some (pyInt ss, { verts := [], faces := [], normals := [], values := [] })) := by
      simp only [mclCore, mclSweep]
      rw [if_neg hdim, if_neg (not_lt.mpr hss), hlvl, engModel_const]
      simp [mclPost]
    cases adeg <;> simp [mclRun, hcore, Except.map, removeDegenerateFaces]

/-- Witness for C3's amended claim: a concrete 2x2x2 constant grid with the
default level raises the no-surface error. -/
theorem mcl_const_grid_witness :
    mclRun engModel (constVol 2 2 2 7) none (1, 1, 1) "descent" 1 true false =
      (Except.error Err.noSurface,
       some (1, { verts := [], faces := [], normals := [], values := [] })) := by
  have h := (mcl_const_grid 2 2 2 7 0 (1, 1, 1) "descent" 1 true false
    (le_refl 2) (le_refl 2) (le_refl 2) (by decide)).2.2
  have hp : pyInt 1 = 1 := by decide
  rw [hp] at h
  exact h

/-- Counterexample to C3 as stated: a uniform constant grid (value 0) that
lies strictly below an explicit threshold (level 1) does not reach the sweep
at all — the call fails the level-range validation with the `InvalidInput`
error, not the claimed `NoSurfaceFound`. -/
theorem mcl_const_below_threshold_cex :
    mclRun engModel (constVol 2 2 2 0) (some 1) (1, 1, 1) "descent" 1 true false =
      (Except.error Err.levelRange, none) ∧
    (mclRun engModel (constVol 2 2 2 0) (some 1) (1, 1, 1) "descent" 1
        true false).1 ≠ Except.error Err.noSurface := by
  constructor
  · rfl
  · intro h
    simp only [show (mclRun engModel (constVol 2 2 2 0) (some 1) (1, 1, 1)
      "descent" 1 true false).1 = Except.error Err.levelRange from rfl] at h
    exact absurd (Except.error.inj h) (by intro hc; cases hc)

/-! ### C6: the degenerate-face filter -/

theorem mem_keptIdx (r : Raw) (i : ℕ) :
    i ∈ keptIdx r ↔ i < r.verts.length ∧ refd (keptFaces r) i = true := by
  simp [keptIdx, refdIdx, List.mem_filter, List.mem_range]

theorem nodup_keptIdx (r : Raw) : (keptIdx r).Nodup :=
  (List.nodup_range _).filter _

theorem sorted_keptIdx (r : Raw) : List.Sorted (· < ·) (keptIdx r) :=
  List.Pairwise.filter _ (List.pairwise_lt_range _)

theorem refd_spec (kept : List Tri) (i : ℕ) :
    refd kept i = true ↔ ∃ t ∈ kept, memTri i t = true := by
  simp [refd, List.any_eq_true]

theorem posOf_rdf (r : Raw) (i : ℕ) (hi : i < r.verts.length)
    (hr : refd (keptFaces r) i = true) :
    posOf (removeDegenerateFaces r).verts ((keptIdx r).indexOf i) =
      posOf r.verts i := by
  have hmem : i ∈ keptIdx r := (mem_keptIdx r i).mpr ⟨hi, hr⟩
  have hlt : (keptIdx r).indexOf i < (keptIdx r).length :=
    List.indexOf_lt_length.mpr hmem
  show posOf ((keptIdx r).map (posOf r.verts)) _ = _
  unfold posOf
  rw [List.getD_eq_getElem?_getD,
    List.getElem?_eq_getElem (by simpa using hlt), Option.getD_some,
    List.getElem_map, List.getElem_indexOf hlt]

theorem renum_getElem (r : Raw) (j : ℕ) (hj : j < (keptIdx r).length) :
    (keptIdx r).indexOf ((keptIdx r)[j]) = j :=
  List.indexOf_getElem (nodup_keptIdx r) j hj

theorem rdf_faces_nondegenerate (r : Raw) (hr : wfRaw r) :
    ∀ t ∈ (removeDegenerateFaces r).faces,
      posOf (removeDegenerateFaces r).verts t.1 ≠
        posOf (removeDegenerateFaces r).verts t.2.1 ∧
      posOf (removeDegenerateFaces r).verts t.1 ≠
        posOf (removeDegenerateFaces r).verts t.2.2 ∧
      posOf (removeDegenerateFaces r).verts t.2.1 ≠
        posOf (removeDegenerateFaces r).verts t.2.2 := by
  intro t ht
  simp only [removeDegenerateFaces, List.mem_map] at ht
  obtain ⟨t0, ht0, rfl⟩ := ht
  have hkeep : keepFace r.verts t0 = true := (List.mem_filter.mp ht0).2
  have hmem : t0 ∈ r.faces := (List.mem_filter.mp ht0).1
  obtain ⟨h1, h2, h3⟩ := hr t0 hmem
  have hr1 : refd (keptFaces r) t0.1 = true :=
    (refd_spec _ _).mpr ⟨t0, ht0, by simp [memTri]⟩
  have hr2 : refd (keptFaces r) t0.2.1 = true :=
    (refd_spec _ _).mpr ⟨t0, ht0, by simp [memTri]⟩
  have hr3 : refd (keptFaces r) t0.2.2 = true :=
    (refd_spec _ _).mpr ⟨t0, ht0, by simp [memTri]⟩
  have hkeep₂ := of_decide_eq_true hkeep
  simp only [triMap]
  rw [posOf_rdf r t0.1 h1 hr1, posOf_rdf r t0.2.1 h2 hr2,
    posOf_rdf r t0.2.2 h3 hr3]
  exact hkeep₂

theorem rdf_all_referenced (r : Raw) :
    ∀ j < (removeDegenerateFaces r).verts.length,
      ∃ t ∈ (removeDegenerateFaces r).faces, memTri j t = true := by
  intro j hj
  have hj₂ : j < (keptIdx r).length := by
    simpa [removeDegenerateFaces] using hj
  have himem : (keptIdx r)[j] ∈ keptIdx r := List.getElem_mem _
  have hrefd : refd (keptFaces r) ((keptIdx r)[j]) = true :=
    ((mem_keptIdx r _).mp himem).2
  obtain ⟨t0, ht0, hmt⟩ := (refd_spec _ _).mp hrefd
  refine ⟨triMap (fun i => (keptIdx r).indexOf i) t0, ?_, ?_⟩
  · simp only [removeDegenerateFaces, List.mem_map]
    exact ⟨t0, ht0, rfl⟩
  · have hji : (keptIdx r).indexOf ((keptIdx r)[j]) = j := renum_getElem r j hj₂
    simp only [memTri, decide_eq_true_iff, triMap] at hmt ⊢
    rcases hmt with h | h | h
    · exact Or.inl (by rw [← h, hji])
    · exact Or.inr (Or.inl (by rw [← h, hji]))
    · exact Or.inr (Or.inr (by rw [← h, hji]))

theorem mclPost_ok_wf (raw : Raw) (sp : Vec3) (gd : String) (out : Raw)
    (hwf : wfRaw raw) (h : mclPost raw sp gd = Except.ok out) : wfRaw out := by
  simp only [mclPost] at h
  by_cases hv : raw.verts = []
  · rw [if_pos hv] at h
    cases h
  · rw [if_neg hv] at h
    by_cases h1 : gd = "descent"
    · rw [if_pos h1] at h
      simp only [Except.ok.injEq] at h
      subst h
      intro t ht
      rw [applySpacing_faces] at ht
      simp only [List.mem_map] at ht
      obtain ⟨t0, ht0, rfl⟩ := ht
      obtain ⟨hb1, hb2, hb3⟩ := hwf t0 ht0
      rw [applySpacing_verts_length]
      simp only [revTri, List.length_map]
      exact ⟨hb3, hb2, hb1⟩
    · rw [if_neg h1] at h
      by_cases h2 : gd = "ascent"
      · rw [if_pos h2] at h
        simp only [Except.ok.injEq] at h
        subst h
        intro t ht
        rw [applySpacing_faces] at ht
        obtain ⟨hb1, hb2, hb3⟩ := hwf t ht
        rw [applySpacing_verts_length]
        simp only [List.length_map]
        exact ⟨hb1, hb2, hb3⟩
      · rw [if_neg h2] at h
        cases h

theorem mclCore_ok_wf (E : Volume → ℚ → ℤ → Bool → Raw) (v : Volume)
    (level : Option ℚ) (sp : Vec3) (gd : String) (ss : ℚ) (uc : Bool)
    (outT : Raw) (hwfE : ∀ v₀ l₀ k₀ c₀, wfRaw (E v₀ l₀ k₀ c₀))
    (hc : (mclCore E v level sp gd ss uc).1 = Except.ok outT) : wfRaw outT := by
  rcases mclCore_cases E v level sp gd ss uc with h | h | h | ⟨lvl, h⟩ <;>
    rw [h] at hc
  · cases hc
  · cases hc
  · cases hc
  · exact mclPost_ok_wf _ sp gd outT (hwfE v lvl (pyInt ss) uc) hc

/-- C6: with `allow_degenerate = false` the returned mesh is the
degenerate-face filter of the `allow_degenerate = true` mesh: no returned
triangle has two coinciding vertex positions, every remaining vertex is
referenced by a surviving triangle (indices are compacted with no gaps), and
the retained vertices and triangles keep their relative order from the
unfiltered result (the retained original vertex indices are strictly
increasing, and the face list is the in-order renumbering of an in-order
sublist of the unfiltered face list). -/
theorem mcl_degenerate_filter_spec (E : Volume → ℚ → ℤ → Bool → Raw)
    (v : Volume) (level : Option ℚ) (sp : Vec3) (gd : String) (ss : ℚ)
    (uc : Bool) (out outT : Raw) (st stT : Option (ℤ × Raw))
    (hwfE : ∀ v₀ l₀ k₀ c₀, wfRaw (E v₀ l₀ k₀ c₀))
    (hF : mclRun E v level sp gd ss false uc = (Except.ok out, st))
    (hT : mclRun E v level sp gd ss true uc = (Except.ok outT, stT)) :
    out = removeDegenerateFaces outT ∧
    (∀ t ∈ out.faces,
      posOf out.verts t.1 ≠ posOf out.verts t.2.1 ∧
      posOf out.verts t.1 ≠ posOf out.verts t.2.2 ∧
      posOf out.verts t.2.1 ≠ posOf out.verts t.2.2) ∧
    (∀ j < out.verts.length, ∃ t ∈ out.faces, memTri j t = true) ∧
    List.Sorted (· < ·) (keptIdx outT) ∧
    out.verts = (keptIdx outT).map (posOf outT.verts) ∧
    List.Sublist (keptFaces outT) outT.faces ∧
    out.faces = (keptFaces outT).map (triMap (fun i => (keptIdx outT).indexOf i)) := by
  have hc : mclCore E v level sp gd ss uc = (Except.ok outT, stT) := by
    rw [← mclRun_true_eq E v level sp gd ss uc]
    exact hT
  have hrdf : out = removeDegenerateFaces outT := by
    rw [mclRun_false_eq, hc] at hF
    simp only [Except.map, Prod.mk.injEq, Except.ok.injEq] at hF
    exact hF.1.symm
  have hwfT : wfRaw outT :=
    mclCore_ok_wf E v level sp gd ss uc outT hwfE (by rw [hc])
  subst hrdf
  refine ⟨rfl, rdf_faces_nondegenerate outT hwfT, rdf_all_referenced outT,
    sorted_keptIdx outT, rfl, List.filter_sublist _, rfl⟩

/-- Witness for C6: a concrete filtered run equals the degenerate-face
filter of the unfiltered run. -/
theorem engModel_wf (v : Volume) (lvl : ℚ) (k : ℤ) (uc : Bool) :
    wfRaw (engModel v lvl k uc) := by
  unfold engModel
  split
  · intro t ht
    simp only [placeholderRaw, List.mem_singleton] at ht
    subst ht
    exact (by decide)
  · intro t ht
    simp at ht

theorem mcl_degenerate_filter_spec_witness :
    ({ verts := [((0 : ℚ), (0 : ℚ), (0 : ℚ)), (0, 0, 1), (0, 1, 0)],
       faces := [(0, 1, 2)],
       normals := [(1, 0, 0), (1, 0, 0), (1, 0, 0)],
       values := [0, 0, 0] } : Raw) =
      removeDegenerateFaces
        { verts := [((0 : ℚ), (0 : ℚ), (0 : ℚ)), (0, 0, 1), (0, 1, 0)],
          faces := [(0, 1, 2)],
          normals := [(1, 0, 0), (1, 0, 0), (1, 0, 0)],
          values := [0, 0, 0] } :=
  (mcl_degenerate_filter_spec engModel rampVol (some (mkRat 1 2)) (1, 1, 1)
    "ascent" 1 false
    { verts := [((0 : ℚ), (0 : ℚ), (0 : ℚ)), (0, 0, 1), (0, 1, 0)],
      faces := [(0, 1, 2)],
      normals := [(1, 0, 0), (1, 0, 0), (1, 0, 0)],
      values := [0, 0, 0] }
    { verts := [((0 : ℚ), (0 : ℚ), (0 : ℚ)), (0, 0, 1), (0, 1, 0)],
      faces := [(0, 1, 2)],
      normals := [(1, 0, 0), (1, 0, 0), (1, 0, 0)],
      values := [0, 0, 0] }
    (some (1, placeholderRaw)) (some (1, placeholderRaw))
    engModel_wf (by rfl) (by rfl)).1

/-! ### C7: spacing scales vertices component-wise -/

theorem scale3_zero (sp : Vec3) : scale3 sp (0, 0, 0) = (0, 0, 0) := by
  simp [scale3]

theorem posOf_map_scale (sp : Vec3) (verts : List Vec3) (i : ℕ) :
    posOf (verts.map (scale3 sp)) i = scale3 sp (posOf verts i) := by
  unfold posOf
  rw [List.getD_eq_getElem?_getD, List.getElem?_map,
    List.getD_eq_getElem?_getD]
  cases h : verts[i]? with
  | none => simp [scale3, Prod.ext_iff]
  | some x => simp

theorem scale3_inj (sp a b : Vec3) (h1 : sp.1 ≠ 0) (h2 : sp.2.1 ≠ 0)
    (h3 : sp.2.2 ≠ 0) : scale3 sp a = scale3 sp b ↔ a = b := by
  constructor
  · intro h
    simp only [scale3, Prod.ext_iff] at h ⊢
    exact ⟨mul_right_cancel₀ h1 h.1, mul_right_cancel₀ h2 h.2.1,
      mul_right_cancel₀ h3 h.2.2⟩
  · intro h
    rw [h]

theorem keepFace_scale (sp : Vec3) (verts : List Vec3) (t : Tri)
    (h1 : sp.1 ≠ 0) (h2 : sp.2.1 ≠ 0) (h3 : sp.2.2 ≠ 0) :
    keepFace (verts.map (scale3 sp)) t = keepFace verts t := by
  unfold keepFace
  apply decide_eq_decide.mpr
  rw [posOf_map_scale, posOf_map_scale, posOf_map_scale]
  simp only [ne_eq, scale3_inj sp _ _ h1 h2 h3]

theorem keptFaces_scale (sp : Vec3) (r : Raw) (h1 : sp.1 ≠ 0)
    (h2 : sp.2.1 ≠ 0) (h3 : sp.2.2 ≠ 0) :
    keptFaces (scaleRaw sp r) = keptFaces r := by
  unfold keptFaces scaleRaw
  exact List.filter_congr (fun t _ => keepFace_scale sp r.verts t h1 h2 h3)

theorem keptIdx_scale (sp : Vec3) (r : Raw) (h1 : sp.1 ≠ 0)
    (h2 : sp.2.1 ≠ 0) (h3 : sp.2.2 ≠ 0) :
    keptIdx (scaleRaw sp r) = keptIdx r := by
  unfold keptIdx refdIdx
  rw [keptFaces_scale sp r h1 h2 h3]
  simp [scaleRaw]

theorem rdf_scale (sp : Vec3) (r : Raw) (h1 : sp.1 ≠ 0) (h2 : sp.2.1 ≠ 0)
    (h3 : sp.2.2 ≠ 0) :
    removeDegenerateFaces (scaleRaw sp r) =
      scaleRaw sp (removeDegenerateFaces r) := by
  have hk := keptFaces_scale sp r h1 h2 h3
  have hi := keptIdx_scale sp r h1 h2 h3
  simp only [scaleRaw] at hk hi
  simp only [removeDegenerateFaces, scaleRaw, hk, hi, List.map_map,
    Raw.mk.injEq]
  refine ⟨?_, ?_⟩
  · apply List.map_congr_left
    intro i _
    exact posOf_map_scale sp r.verts i
  · simp

theorem scaleRaw_one (r : Raw) : scaleRaw (1, 1, 1) r = r := by
  have h : ∀ a : Vec3, scale3 (1, 1, 1) a = a := by
    intro a
    simp [scale3]
  cases r with
  | mk verts faces normals values =>
      simp only [scaleRaw]
      congr 1
      exact List.map_id'' h verts

theorem applySpacing_eq_scaleRaw (sp : Vec3) (r : Raw) :
    applySpacing sp r = scaleRaw sp r := by
  unfold applySpacing
  split
  · rename_i h
    rw [h]
    exact (scaleRaw_one r).symm
  · rfl

theorem mclPost_spacing (raw : Raw) (sp : Vec3) (gd : String) :
    mclPost raw sp gd = (mclPost raw (1, 1, 1) gd).map (scaleRaw sp) := by
  simp only [mclPost]
  by_cases hv : raw.verts = []
  · rw [if_pos hv, if_pos hv]
    rfl
  · rw [if_neg hv, if_neg hv]
    by_cases h1 : gd = "descent"
    · rw [if_pos h1, if_pos h1, applySpacing_eq_scaleRaw,
        applySpacing_eq_scaleRaw, scaleRaw_one]
      rfl
    · rw [if_neg h1, if_neg h1]
      by_cases h2 : gd = "ascent"
      · rw [if_pos h2, if_pos h2, applySpacing_eq_scaleRaw,
          applySpacing_eq_scaleRaw, scaleRaw_one]
        rfl
      · rw [if_neg h2, if_neg h2]
        rfl

theorem mclCore_spacing (E : Volume → ℚ → ℤ → Bool → Raw) (v : Volume)
    (level : Option ℚ) (sp : Vec3) (gd : String) (ss : ℚ) (uc : Bool) :
    mclCore E v level sp gd ss uc =
      ((mclCore E v level (1, 1, 1) gd ss uc).1.map (scaleRaw sp),
       (mclCore E v level (1, 1, 1) gd ss uc).2) := by
  by_cases hdim : v.m < 2 ∨ v.n < 2 ∨ v.p < 2
  · simp [mclCore, hdim, Except.map]
  · cases level with
    | none =>
        by_cases hk : pyInt ss < 1
        · simp [mclCore, mclSweep, hdim, hk, Except.map]
        · simp only [mclCore, mclSweep, hdim, hk, if_false, ite_false]
          exact Prod.mk.injEq .. |>.mpr ⟨mclPost_spacing _ sp gd, rfl⟩
    | some l =>
        by_cases hl : l < vmin v ∨ vmax v < l
        · simp [mclCore, hdim, hl, Except.map]
        · by_cases hk : pyInt ss < 1
          · simp [mclCore, mclSweep, hdim, hl, hk, Except.map]
          · simp only [mclCore, mclSweep, hdim, hl, hk, if_false, ite_false]
            exact Prod.mk.injEq .. |>.mpr ⟨mclPost_spacing _ sp gd, rfl⟩

/-- C7: for positive spacing, each output vertex is the component-wise
product of the spacing triple with the corresponding vertex of the
identity-spacing run, everything else (faces, normals, values, the sweep
performed, and success/failure) being identical; at spacing `(1, 1, 1)` the
scaling step is skipped and the vertices are returned unscaled. -/
theorem mcl_spacing_scales_vertices (E : Volume → ℚ → ℤ → Bool → Raw)
    (v : Volume) (level : Option ℚ) (gd : String) (ss : ℚ) (adeg uc : Bool)
    (sp : Vec3) (out : Raw) (st : Option (ℤ × Raw))
    (h1 : 0 < sp.1) (h2 : 0 < sp.2.1) (h3 : 0 < sp.2.2)
    (hI : mclRun E v level (1, 1, 1) gd ss adeg uc = (Except.ok out, st)) :
    mclRun E v level sp gd ss adeg uc =
      (Except.ok { out with verts := out.verts.map (scale3 sp) }, st) := by
  have hn1 : sp.1 ≠ 0 := ne_of_gt h1
  have hn2 : sp.2.1 ≠ 0 := ne_of_gt h2
  have hn3 : sp.2.2 ≠ 0 := ne_of_gt h3
  cases adeg with
  | true =>
      have hc : mclCore E v level (1, 1, 1) gd ss uc = (Except.ok out, st) := by
        rw [← mclRun_true_eq E v level (1, 1, 1) gd ss uc]
        exact hI
      rw [mclRun_true_eq, mclCore_spacing E v level sp gd ss uc, hc]
      rfl
  | false =>
      rw [mclRun_false_eq] at hI
      rcases hco : (mclCore E v level (1, 1, 1) gd ss uc).1 with e | r0
      · rw [hco] at hI
        simp [Except.map] at hI
      · rw [hco] at hI
        simp only [Except.map, Prod.mk.injEq, Except.ok.injEq] at hI
        obtain ⟨hout, hst⟩ := hI
        rw [mclRun_false_eq, mclCore_spacing E v level sp gd ss uc, hco, hst]
        show (Except.ok (removeDegenerateFaces (scaleRaw sp r0)), st) = _
        rw [rdf_scale sp r0 hn1 hn2 hn3, hout]
        rfl

/-- Witness for C7: a concrete run with spacing `(2, 3, 5)` returns the
identity-spacing vertices scaled component-wise. -/
theorem mcl_spacing_scales_vertices_witness :
    mclRun engModel rampVol (some (mkRat 1 2)) (2, 3, 5) "ascent" 1 true false =
      (Except.ok
        { ({ verts := [((0 : ℚ), (0 : ℚ), (0 : ℚ)), (0, 0, 1), (0, 1, 0)],
             faces := [(0, 1, 2)],
             normals := [(1, 0, 0), (1, 0, 0), (1, 0, 0)],
             values := [0, 0, 0] } : Raw) with
          verts := [((0 : ℚ), (0 : ℚ), (0 : ℚ)), (0, 0, 1), (0, 1, 0)].map
            (scale3 (2, 3, 5)) },
       some (1, placeholderRaw)) :=
  mcl_spacing_scales_vertices engModel rampVol (some (mkRat 1 2)) "ascent" 1
    true false (2, 3, 5)
    { verts := [((0 : ℚ), (0 : ℚ), (0 : ℚ)), (0, 0, 1), (0, 1, 0)],
      faces := [(0, 1, 2)],
      normals := [(1, 0, 0), (1, 0, 0), (1, 0, 0)],
      values := [0, 0, 0] }
    (some (1, placeholderRaw)) (by norm_num) (by norm_num) (by norm_num)
    (by rfl)

/-! ### C8: descent flips the winding of the ascent output -/

theorem memTri_rev (i : ℕ) (t : Tri) : memTri i (revTri t) = memTri i t := by
  unfold memTri revTri
  apply decide_eq_decide.mpr
  constructor
  · intro h
    tauto
  · intro h
    tauto

theorem keepFace_rev (verts : List Vec3) (t : Tri) :
    keepFace verts (revTri t) = keepFace verts t := by
  unfold keepFace revTri
  apply decide_eq_decide.mpr
  constructor
  · rintro ⟨a, b, c⟩
    exact ⟨c.symm, b.symm, a.symm⟩
  · rintro ⟨a, b, c⟩
    exact ⟨c.symm, b.symm, a.symm⟩

theorem keptFaces_flip (r : Raw) :
    keptFaces (flipFacesRaw r) = (keptFaces r).map revTri := by
  unfold keptFaces flipFacesRaw
  rw [List.filter_map]
  congr 1
  exact List.filter_congr (fun t _ => keepFace_rev r.verts t)

theorem refd_flip (r : Raw) (i : ℕ) :
    refd (keptFaces (flipFacesRaw r)) i = refd (keptFaces r) i := by
  rw [keptFaces_flip]
  unfold refd
  rw [List.any_map]
  have h : (memTri i ∘ revTri) = memTri i := funext (fun t => memTri_rev i t)
  rw [h]

theorem keptIdx_flip (r : Raw) : keptIdx (flipFacesRaw r) = keptIdx r := by
  unfold keptIdx refdIdx
  have hv : (flipFacesRaw r).verts = r.verts := rfl
  rw [hv]
  exact List.filter_congr (fun i _ => refd_flip r i)

theorem rdf_flip (r : Raw) :
    removeDegenerateFaces (flipFacesRaw r) =
      flipFacesRaw (removeDegenerateFaces r) := by
  have hk := keptFaces_flip r
  have hi := keptIdx_flip r
  simp only [flipFacesRaw] at hk hi
  simp only [removeDegenerateFaces, flipFacesRaw, hk, hi, List.map_map,
    Raw.mk.injEq, true_and, and_true]
  apply List.map_congr_left
  intro t _
  rfl

theorem mclPost_descent (raw : Raw) (sp : Vec3) :
    mclPost raw sp "descent" = (mclPost raw sp "ascent").map flipFacesRaw := by
  simp only [mclPost]
  by_cases hv : raw.verts = []
  · rw [if_pos hv, if_pos hv]
    rfl
  · rw [if_neg hv, if_neg hv]
    simp [Except.map, applySpacing_eq_scaleRaw, scaleRaw, flipFacesRaw]

theorem mclCore_descent (E : Volume → ℚ → ℤ → Bool → Raw) (v : Volume)
    (level : Option ℚ) (sp : Vec3) (ss : ℚ) (uc : Bool) :
    mclCore E v level sp "descent" ss uc =
      ((mclCore E v level sp "ascent" ss uc).1.map flipFacesRaw,
       (mclCore E v level sp "ascent" ss uc).2) := by
  by_cases hdim : v.m < 2 ∨ v.n < 2 ∨ v.p < 2
  · simp [mclCore, hdim, Except.map]
  · cases level with
    | none =>
        by_cases hk : pyInt ss < 1
        · simp [mclCore, mclSweep, hdim, hk, Except.map]
        · simp only [mclCore, mclSweep, hdim, hk, if_false, ite_false]
          exact Prod.mk.injEq .. |>.mpr ⟨mclPost_descent _ sp, rfl⟩
    | some l =>
        by_cases hl : l < vmin v ∨ vmax v < l
        · simp [mclCore, hdim, hl, Except.map]
        · by_cases hk : pyInt ss < 1
          · simp [mclCore, mclSweep, hdim, hl, hk, Except.map]
          · simp only [mclCore, mclSweep, hdim, hl, hk, if_false, ite_false]
            exact Prod.mk.injEq .. |>.mpr ⟨mclPost_descent _ sp, rfl⟩

/-- C8: with all other inputs fixed, the faces returned under
`gradient_direction = "descent"` are the per-triangle index-order reversal
(flipped winding) of the faces returned under `"ascent"`, everything else
equal; and with `allow_degenerate = true` the ascent output keeps the raw
sweep's face list (and hence its winding) unchanged. -/
theorem mcl_descent_flips_winding (E : Volume → ℚ → ℤ → Bool → Raw)
    (v : Volume) (level : Option ℚ) (sp : Vec3) (ss : ℚ) (adeg uc : Bool)
    (out : Raw) (st : Option (ℤ × Raw))
    (hA : mclRun E v level sp "ascent" ss adeg uc = (Except.ok out, st)) :
    mclRun E v level sp "descent" ss adeg uc =
      (Except.ok { out with faces := out.faces.map revTri }, st) ∧
    (adeg = true → ∀ k raw, st = some (k, raw) → out.faces = raw.faces) := by
  constructor
  · cases adeg with
    | true =>
        have hc : mclCore E v level sp "ascent" ss uc = (Except.ok out, st) := by
          rw [← mclRun_true_eq E v level sp "ascent" ss uc]
          exact hA
        rw [mclRun_true_eq, mclCore_descent E v level sp ss uc, hc]
        rfl
    | false =>
        rw [mclRun_false_eq] at hA
        rcases hco : (mclCore E v level sp "ascent" ss uc).1 with e | r0
        · rw [hco] at hA
          simp [Except.map] at hA
        · rw [hco] at hA
          simp only [Except.map, Prod.mk.injEq, Except.ok.injEq] at hA
          obtain ⟨hout, hst⟩ := hA
          rw [mclRun_false_eq, mclCore_descent E v level sp ss uc, hco, hst]
          show (Except.ok (removeDegenerateFaces (flipFacesRaw r0)), st) = _
          rw [rdf_flip r0, hout]
          rfl
  · intro hadeg k raw hst
    subst hadeg
    have hc : mclCore E v level sp "ascent" ss uc = (Except.ok out, st) := by
      rw [← mclRun_true_eq E v level sp "ascent" ss uc]
      exact hA
    rcases mclCore_cases E v level sp "ascent" ss uc with h | h | h | ⟨lvl, h⟩ <;>
      rw [h] at hc
    · simp at hc
    · simp at hc
    · simp at hc
    · simp only [Prod.mk.injEq] at hc
      obtain ⟨hpost, hsnd⟩ := hc
      rw [← hsnd] at hst
      simp only [Option.some.injEq, Prod.mk.injEq] at hst
      have hraw : raw = E v lvl (pyInt ss) uc := hst.2.symm
      rw [← hraw] at hpost
      simp only [mclPost] at hpost
      by_cases hv : raw.verts = []
      · rw [if_pos hv] at hpost
        cases hpost
      · rw [if_neg hv] at hpost
        injection hpost with hpost
        rw [← hpost, applySpacing_faces]

/-- Witness for C8: a concrete descent run equals the ascent run with every
triangle's winding reversed. -/
theorem mcl_descent_flips_winding_witness :
    mclRun engModel rampVol (some (mkRat 1 2)) (1, 1, 1) "descent" 1 true false =
      (Except.ok
        { ({ verts := [((0 : ℚ), (0 : ℚ), (0 : ℚ)), (0, 0, 1), (0, 1, 0)],
             faces := [(0, 1, 2)],
             normals := [(1, 0, 0), (1, 0, 0), (1, 0, 0)],
             values := [0, 0, 0] } : Raw) with
          faces := [((0 : ℕ), (1 : ℕ), (2 : ℕ))].map revTri },
       some (1, placeholderRaw)) :=
  (mcl_descent_flips_winding engModel rampVol (some (mkRat 1 2)) (1, 1, 1) 1
    true false
    { verts := [((0 : ℚ), (0 : ℚ), (0 : ℚ)), (0, 0, 1), (0, 1, 0)],
      faces := [(0, 1, 2)],
      normals := [(1, 0, 0), (1, 0, 0), (1, 0, 0)],
      values := [0, 0, 0] }
    (some (1, placeholderRaw)) (by rfl)).1
